import Mathlib

/-!
Shallow embedding of the document ingestion-and-retrieval subsystem of
`obahamonde/open-intelligence` (the "vector store" feature), together with
proofs about its behaviour.

Source files embedded:
* `src/server/api/vector_stores/files/service.py` — `SentenceChunker`,
  `FileObjectDocumentChunk`, `VectorStoreFileDocument`, `FileSearchTool`
  (`upsert`, `text_upsert`, `search`);
* `src/server/api/vector_stores/handler.py` — the HTTP endpoints
  `create_vector_store`, `create_vector_store_file`,
  `delete_vector_store_file`;
* `src/server/api/embeddings/handler.py` — `ImageTextEmbedder`
  (`compute_text_embedding`, `compute_image_embedding`).

Modelling conventions:
* Python `str` values are modelled as `List Char` (`Str`), so that the
  semantics of `" ".join` and `str.strip()` truthiness are ordinary list
  functions.
* `float32` arithmetic is idealized over `ℚ`; the byte size (`nbytes`) of a
  float32 vector of length `n` is `4 * n`.
* The spaCy sentence-boundary detector (`self.nlp(text).sents`) is an
  external collaborator: functions that the source feeds raw text are given
  the detector's output, a list of sentences, directly.  A chunk produced by
  grouping sentences is represented by its list of sentences; the chunk's
  text is `joinSp` of that list.  When `_apply_chunk_overlap` re-runs
  `self.nlp` on a previous chunk's text, the detector is assumed to recover
  exactly that chunk's sentences.
* The generic persistence layer `DocumentObject`
  (`put`/`scan`/`find`/`delete`/`create_store`) is not part of the given
  source tree; it is modelled from the spec (§4.3), as noted on each
  definition.
-/

/-- A Python string, modelled as its list of characters. -/
abbrev Str := List Char

/-- Python `" ".join(parts)`: concatenation with a single blank between
consecutive parts. -/
def joinSp : List Str → Str
  | [] => []
  | [s] => s
  | s :: rest => s ++ ' ' :: joinSp rest

/-- Falsity of Python `if chunk.strip():` — a string is blank iff every
character is whitespace (in particular the empty string is blank). -/
def isBlank (s : Str) : Bool := s.all Char.isWhitespace

/-- The `lang` field of `SentenceChunker` (`Literal["en", "es"]`). -/
inductive Lang
  | en
  | es
deriving DecidableEq, Repr

/-- Embeds the pydantic model `SentenceChunker` of
`vector_stores/files/service.py` (its configuration fields; the spaCy
pipeline `nlp` is external state and does not appear). -/
structure SentenceChunker where
  max_chunk_size_tokens : Nat := 2
  chunk_overlap_tokens : Nat := 0
  lang : Lang := Lang.en
deriving DecidableEq, Repr

/-- The sentence-accumulation loop of
`SentenceChunker._apply_max_chunk_size`: `cur` is `current_chunk`, `cnt` is
`current_count`; a chunk is flushed as soon as `current_count >=
max_chunk_size_tokens`, and a nonempty tail chunk is flushed at the end.
Chunks are kept as sentence lists (the source stores `" ".join(current_chunk)`,
recoverable as `joinSp`). -/
def SentenceChunker.groupAux (k : Nat) : List Str → List Str → Nat → List (List Str)
  | [], cur, _ => if cur = [] then [] else [cur]
  | s :: rest, cur, cnt =>
    let cur' := cur ++ [s]
    let cnt' := cnt + 1
    if k ≤ cnt' then cur' :: SentenceChunker.groupAux k rest [] 0
    else SentenceChunker.groupAux k rest cur' cnt'

/-- Embeds `SentenceChunker._apply_max_chunk_size`.  `sents` stands for
`list(self.nlp(text).sents)`, the output of the external sentence-boundary
detector on the input text. -/
def SentenceChunker.apply_max_chunk_size (self : SentenceChunker) (sents : List Str) :
    List (List Str) :=
  if sents = [] then []
  else SentenceChunker.groupAux self.max_chunk_size_tokens sents [] 0

/-- The body of `SentenceChunker._apply_chunk_overlap`'s loop for `i > 0`:
`prev` is the pre-overlap chunk `i-1` as its sentences
(`list(self.nlp(prev_chunk).sents)`), `cur` the pre-overlap chunk `i`.
`overlap_sentences` is `prev_sentences[-overlap_size:]` when the previous
chunk has at least `overlap_size` sentences and all of them otherwise. -/
def SentenceChunker.overlapStep (o : Nat) (prev cur : List Str) : Str :=
  let overlap_sentences := if o ≤ prev.length then prev.drop (prev.length - o) else prev
  let current_text := joinSp overlap_sentences
  if current_text = [] then joinSp cur else current_text ++ ' ' :: joinSp cur

/-- The traversal of `_apply_chunk_overlap` over chunks with index `i > 0`,
carrying the previous pre-overlap chunk. -/
def SentenceChunker.overlapAux (o : Nat) : List Str → List (List Str) → List Str
  | _, [] => []
  | prev, c :: cs => SentenceChunker.overlapStep o prev c :: SentenceChunker.overlapAux o c cs

/-- Embeds `SentenceChunker._apply_chunk_overlap`: chunk `0` (and the whole
list when `chunk_overlap_tokens == 0` or the list is empty) passes through
unmodified; every later chunk is prefixed with the trailing overlap sentences
of its pre-overlap predecessor. -/
def SentenceChunker.apply_chunk_overlap (self : SentenceChunker) (chunks : List (List Str)) :
    List Str :=
  match chunks with
  | [] => []
  | c :: cs =>
    if self.chunk_overlap_tokens = 0 then (c :: cs).map joinSp
    else joinSp c :: SentenceChunker.overlapAux self.chunk_overlap_tokens c cs

/-- Embeds the generator `SentenceChunker.chunk`: apply the size pass, then
the overlap pass, then drop chunks whose text is blank (`if chunk.strip():`). -/
def SentenceChunker.chunk (self : SentenceChunker) (sents : List Str) : List Str :=
  ((self.apply_chunk_overlap (self.apply_max_chunk_size sents)).filter
    (fun c => !(isBlank c)))

/-- The error taxonomy relevant to ingestion (spec §7): transient embedding
failures, persistence failures, unsupported input. -/
inductive IngestErr
  | embedding_compute
  | persistence
  | unsupported_input
deriving DecidableEq, Repr

instance {ε α : Type} [DecidableEq ε] [DecidableEq α] : DecidableEq (Except ε α) :=
  fun a b =>
    match a, b with
    | Except.ok x, Except.ok y =>
      match decEq x y with
      | isTrue h => isTrue (h ▸ rfl)
      | isFalse h => isFalse (fun he => h (Except.ok.inj he))
    | Except.error x, Except.error y =>
      match decEq x y with
      | isTrue h => isTrue (h ▸ rfl)
      | isFalse h => isFalse (fun he => h (Except.error.inj he))
    | Except.ok _, Except.error _ => isFalse (fun he => Except.noConfusion he)
    | Except.error _, Except.ok _ => isFalse (fun he => Except.noConfusion he)

/-- Embeds the pydantic model `FileObjectDocumentChunk` of
`vector_stores/files/service.py`: one persisted chunk, owning embedding
(float32 vector, idealized as `List ℚ`), content, and its namespacing ids.
The opaque `id` is the uuid generated at creation. -/
structure FileObjectDocumentChunk where
  id : String
  embedding : List ℚ
  content : Option Str := none
  file_id : String
  vector_store_id : String
deriving DecidableEq, Repr

instance : Inhabited FileObjectDocumentChunk :=
  ⟨{ id := "", embedding := [], content := none, file_id := "", vector_store_id := "" }⟩

/-- The `status` field of `VectorStoreFileDocument`
(`Literal["in_progress", "completed", "cancelled", "failed"]`). -/
inductive FileStatus
  | in_progress
  | completed
  | cancelled
  | failed
deriving DecidableEq, Repr

/-- Embeds the pydantic model `VectorStoreFileDocument` of
`vector_stores/files/service.py` (the wall-clock `created_at` field is
omitted from the model). -/
structure VectorStoreFileDocument where
  usage_bytes : Nat := 0
  vector_store_id : String
  status : FileStatus := FileStatus.in_progress
  last_error : Option IngestErr := none
  chunking_strategy : Option SentenceChunker := none
  file_id : String
deriving DecidableEq, Repr

/-- Embeds the pydantic model `SimilaritySearchResult` of
`vector_stores/files/repository.py`. -/
structure SimilaritySearchResult where
  id : String
  file_id : String
  score : ℚ
  content : Option Str
deriving DecidableEq, Repr

/-- Modelled from the spec: the persistent state behind `DocumentObject`
(§4.3 Chunk Store) and the `put` of `VectorStoreFileDocument` records —
`stores` is the set of created store namespaces, `chunks` the persisted
document chunks (insertion order preserved), `files` the persisted
vector-store-file records. -/
structure ChunkDb where
  stores : List String := []
  chunks : List FileObjectDocumentChunk := []
  files : List VectorStoreFileDocument := []
deriving DecidableEq, Repr

/-- Modelled from the spec: `DocumentObject.put` for a chunk (§4.3) —
persists the chunk, preserving insertion order. -/
def ChunkDb.putChunk (db : ChunkDb) (c : FileObjectDocumentChunk) : ChunkDb :=
  { db with chunks := db.chunks ++ [c] }

/-- Modelled from the spec: `put` for a `VectorStoreFileDocument` record —
persists the record and hands it back (the metadata store's update
operation, §6). -/
def ChunkDb.putFile (db : ChunkDb) (f : VectorStoreFileDocument) : ChunkDb :=
  { db with files := db.files ++ [f] }

/-- Modelled from the spec: `DocumentObject.scan(store_id)` (§4.3) — all
chunks of one vector store, in insertion order. -/
def ChunkDb.scan (db : ChunkDb) (store_id : String) : List FileObjectDocumentChunk :=
  db.chunks.filter (fun c => decide (c.vector_store_id = store_id))

/-- Modelled from the spec: `DocumentObject.find(store_id, file_id)` (§4.3)
— the chunks of one file within one vector store. -/
def ChunkDb.find (db : ChunkDb) (store_id file_id : String) : List FileObjectDocumentChunk :=
  (db.scan store_id).filter (fun c => decide (c.file_id = file_id))

/-- Modelled from the spec: `DocumentObject.delete(store_id, id)` (§4.3) —
removes the chunk with the given id from the given store namespace. -/
def ChunkDb.deleteChunk (db : ChunkDb) (store_id id : String) : ChunkDb :=
  { db with
    chunks := db.chunks.filter (fun c => !(decide (c.vector_store_id = store_id ∧ c.id = id))) }

/-- Modelled from the spec: `VectorStore.create_store(store_id)` — ensures
the chunk-store namespace for the given id exists (idempotent). -/
def ChunkDb.create_store (db : ChunkDb) (store_id : String) : ChunkDb :=
  if store_id ∈ db.stores then db else { db with stores := db.stores ++ [store_id] }

/-- The chunk-processing loop of `FileSearchTool.upsert` (driving
`text_upsert`): for each chunk text produced by the chunker, compute its
embedding (`worker.compute_text_embedding`, an external model call that may
fail, modelled by `embed`), build a `FileObjectDocumentChunk` whose uuid is
supplied by the external generator `ids`, persist it, and add the
embedding's `nbytes` (`4 * length` for float32) to the running
`usage_bytes`.  An embedding or persistence error propagates out of the
loop, exactly as the unguarded `async for` does in the source; on success
the record is marked `completed` and persisted via `put`. -/
def upsertLoop (vsid fid : String) (embed : Str → Except IngestErr (List ℚ))
    (ids : Nat → String) :
    List Str → Nat → VectorStoreFileDocument → ChunkDb →
      ChunkDb × Except IngestErr VectorStoreFileDocument
  | [], _, vs_file, db =>
    let f := { vs_file with status := FileStatus.completed }
    (db.putFile f, Except.ok f)
  | t :: ts, i, vs_file, db =>
    match embed t with
    | Except.error e => (db, Except.error e)
    | Except.ok v =>
      upsertLoop vsid fid embed ids ts (i + 1)
        { vs_file with usage_bytes := vs_file.usage_bytes + 4 * v.length }
        (db.putChunk
          { id := ids i, embedding := v, content := some t, file_id := fid,
            vector_store_id := vsid })

/-- Embeds `FileSearchTool.upsert` composed with `text_upsert`: start a
`VectorStoreFileDocument` in its default `in_progress` state, chunk the
extracted text (`sents` is the sentence list of `"".join(doc.extract_text())`
from the external loader and detector), and run the chunk loop.  The
commented-out `image_upsert` loop of the source is not modelled. -/
def FileSearchTool.upsert (strategy : SentenceChunker) (vsid fid : String)
    (embed : Str → Except IngestErr (List ℚ)) (ids : Nat → String)
    (sents : List Str) (db : ChunkDb) :
    ChunkDb × Except IngestErr VectorStoreFileDocument :=
  upsertLoop vsid fid embed ids (strategy.chunk sents) 0
    { vector_store_id := vsid, chunking_strategy := some strategy, file_id := fid } db

/-- Embeds the Prisma model `VectorStoreFile` row created by the HTTP
endpoint `create_vector_store_file` (handler.py): only the fields the
endpoint sets are modelled. -/
structure PrismaVectorStoreFile where
  id : String
  vector_store_id : String
  status : FileStatus
  usage_bytes : Nat
deriving DecidableEq, Repr

/-- Embeds the endpoint `create_vector_store_file` of
`vector_stores/handler.py`: retrieve the stored file (its byte length is
`total_bytes = len(obj.body)`), build a `FileSearchTool` whose own
`file_id` is a fresh uuid (`tool_fid`), run `upsert`, and on success create
the Prisma `VectorStoreFile` row with `id = file.file_id` (`req_fid`),
`status = "completed"` and `usage_bytes = total_bytes`.  Object storage,
the `/tmp` copy and loader selection are external and abstracted into
`total_bytes` and `sents`; an `upsert` error propagates, in which case no
Prisma row is created. -/
def create_vector_store_file (vsid req_fid tool_fid : String) (total_bytes : Nat)
    (strategy : SentenceChunker) (embed : Str → Except IngestErr (List ℚ))
    (ids : Nat → String) (sents : List Str) (db : ChunkDb) :
    ChunkDb × Except IngestErr PrismaVectorStoreFile :=
  match FileSearchTool.upsert strategy vsid tool_fid embed ids sents db with
  | (db', Except.error e) => (db', Except.error e)
  | (db', Except.ok _) =>
    (db', Except.ok
      { id := req_fid, vector_store_id := vsid, status := FileStatus.completed,
        usage_bytes := total_bytes })

/-- Embeds the endpoint `delete_vector_store_file` of
`vector_stores/handler.py`: for every chunk returned by
`FileObjectDocumentChunk.find(store_id=vector_store_id, file_id=file_id)`,
delete that chunk by its id from the store namespace.  The deletions are
gathered concurrently in the source; as each acts on a distinct id they
commute, and they are folded sequentially here.  The accompanying Prisma
`VectorStoreFile.delete` touches only the relational row, not the chunk
store. -/
def delete_vector_store_file (vsid fid : String) (db : ChunkDb) : ChunkDb :=
  (db.find vsid fid).foldl (fun d c => d.deleteChunk vsid c.id) db

/-- The payload of a `CreateVectorStore` request (handler.py /
`vector_stores/repository.py`); the fields other than `id` and `name` are
passed through verbatim by the endpoint and are represented by `name`
alone without loss of generality for the persisted-record equality. -/
structure CreateVectorStore where
  id : String
  name : Option String := none
deriving DecidableEq, Repr

/-- The Prisma `VectorStore` table: rows keyed by id, holding the persisted
payload. -/
abbrev VectorStoreTable := List (String × CreateVectorStore)

/-- Modelled from the spec: `prisma().upsert` on the relational metadata
store (§6) — if a row with the id exists, apply the `update` payload to it,
otherwise insert the `create` payload; it never fails with a duplicate-id
error, and it returns the resulting row. -/
def prismaUpsertVS (id : String) (create update : CreateVectorStore)
    (t : VectorStoreTable) : VectorStoreTable × CreateVectorStore :=
  match t.lookup id with
  | some _ => (t.map (fun r => if r.1 = id then (id, update) else r), update)
  | none => (t ++ [(id, create)], create)

/-- Embeds the endpoint `create_vector_store` of `vector_stores/handler.py`:
first `VectorStore.create_store(store_id=data.id)` on the chunk store, then
a Prisma upsert whose `create` and `update` payloads are both
`data.model_dump(exclude_none=True)`. -/
def create_vector_store (data : CreateVectorStore) (db : ChunkDb)
    (t : VectorStoreTable) : (ChunkDb × VectorStoreTable) × CreateVectorStore :=
  let db' := db.create_store data.id
  let r := prismaUpsertVS data.id data data t
  ((db', r.1), r.2)

/-- The squared L2 norm of a vector: the sum of the squares of its
entries. -/
def norm2 (v : List ℚ) : ℚ := (v.map (fun x => x ^ 2)).sum

/-- Elementwise sum of a batch of equal-length vectors (the reduction
inside `tensor.mean(dim=1)`). -/
def sumVecs : List (List ℚ) → List ℚ
  | [] => []
  | [v] => v
  | v :: rest => List.zipWith (fun a b => a + b) v (sumVecs rest)

/-- `last_hidden_state.mean(dim=1)` for one batch element: the elementwise
mean of the sequence of hidden-state vectors. -/
def meanPool (hidden : List (List ℚ)) : List ℚ :=
  (sumVecs hidden).map (fun x => x / (hidden.length : ℚ))

/-- The `eps` default of `torch.nn.functional.normalize`. -/
def normEps : ℚ := 1 / 10 ^ 12

/-- `F.normalize(v, p=2, dim=1)` for one row, with the float sqrt of the
squared norm supplied as `s` (square roots are irrational in general, so
the caller provides `s` together with the defining equation `s * s =
norm2 v` in the theorems): each entry is divided by `max s eps`. -/
def F_normalize (s : ℚ) (v : List ℚ) : List ℚ :=
  v.map (fun x => x / max s normEps)

/-- Embeds `ImageTextEmbedder.compute_text_embedding` of
`embeddings/handler.py` downstream of the external model forward pass:
`hidden` is the model's `last_hidden_state` for the (single) input, the
embedding is its mean over the sequence dimension, L2-normalized.
Tokenization and the forward pass are the external model. -/
def compute_text_embedding (hidden : List (List ℚ)) (s : ℚ) : List ℚ :=
  F_normalize s (meanPool hidden)

/-- Embeds `ImageTextEmbedder.compute_image_embedding` of
`embeddings/handler.py` downstream of the external vision model: identical
pooling (`last_hidden_state.mean(dim=1)`) and `F.normalize` as the text
path, applied to the vision model's hidden states. -/
def compute_image_embedding (hidden : List (List ℚ)) (s : ℚ) : List ℚ :=
  F_normalize s (meanPool hidden)

/-- Squared Euclidean distance between a query and a stored vector — the
metric of `faiss.IndexFlatL2`. -/
def dist2 (q v : List ℚ) : ℚ := ((q.zip v).map (fun p => (p.1 - p.2) ^ 2)).sum

/-- Embeds `score=float(1 / (1 + distance))` of `FileSearchTool.search`. -/
def score (d : ℚ) : ℚ := 1 / (1 + d)

/-- The ranking relation of the flat L2 index on indices into the stored
vectors, for the distance list `ds`: ascending by distance, ties broken by
index order. -/
def rankRel (ds : List ℚ) (i j : Nat) : Prop :=
  ds.getD i 0 < ds.getD j 0 ∨ (ds.getD i 0 = ds.getD j 0 ∧ i ≤ j)

instance (ds : List ℚ) : DecidableRel (rankRel ds) := fun _ _ => by
  unfold rankRel; infer_instance

instance (ds : List ℚ) : IsTotal Nat (rankRel ds) := by
  constructor
  intro a b
  rcases lt_trichotomy (ds.getD a 0) (ds.getD b 0) with h | h | h
  · exact Or.inl (Or.inl h)
  · rcases Nat.le_total a b with hab | hab
    · exact Or.inl (Or.inr ⟨h, hab⟩)
    · exact Or.inr (Or.inr ⟨h.symm, hab⟩)
  · exact Or.inr (Or.inl h)

instance (ds : List ℚ) : IsTrans Nat (rankRel ds) := by
  constructor
  rintro a b c (h1 | ⟨h1, h1'⟩) (h2 | ⟨h2, h2'⟩)
  · exact Or.inl (h1.trans h2)
  · exact Or.inl (h2 ▸ h1)
  · exact Or.inl (h1 ▸ h2)
  · exact Or.inr ⟨h1.trans h2, h1'.trans h2'⟩

/-- Modelled from the spec: `faiss.IndexFlatL2` build-and-search (§4.4
steps 3–5, an external library): exact brute-force search returning, for
the query, the `top_k` index/distance pairs with the smallest squared L2
distances in ascending order, ties broken deterministically by index
order; when fewer than `top_k` vectors are indexed, the remaining slots
carry index `-1`. -/
def faissSearch (embs : List (List ℚ)) (q : List ℚ) (topk : Nat) : List (Int × ℚ) :=
  let ds := embs.map (dist2 q)
  let ranked := List.insertionSort (rankRel ds) (List.range embs.length)
  let hits := (ranked.take topk).map (fun i => (Int.ofNat i, ds.getD i 0))
  hits ++ List.replicate (topk - hits.length) (-1, 0)

/-- Embeds `FileSearchTool.search` of `vector_stores/files/service.py`
downstream of the query embedding: `docs` is the scan of the vector
store's chunks (`FileObjectDocumentChunk.scan`), `q` the embedded query
vector.  The index is built over all chunk embeddings, searched for
`top_k` neighbours, and every hit with index `!= -1` is yielded as a
`SimilaritySearchResult` with `score = 1 / (1 + distance)`. -/
def FileSearchTool.search (docs : List FileObjectDocumentChunk) (q : List ℚ)
    (topk : Nat) : List SimilaritySearchResult :=
  (faissSearch (docs.map (fun d => d.embedding)) q topk).filterMap (fun p =>
    if p.1 = -1 then none
    else
      let d := docs.getD p.1.toNat default
      some { id := d.id, file_id := d.file_id, score := score p.2, content := d.content })

/-- The length of the embedding an embedder yields for a chunk text (0 when
the embedder fails); `4 * embedLen` is the float32 `nbytes` the upsert loop
adds to `usage_bytes`. -/
def embedLen (embed : Str → Except IngestErr (List ℚ)) (t : Str) : Nat :=
  match embed t with
  | Except.ok v => v.length
  | Except.error _ => 0

/-- A concrete embedder for witnesses: every chunk text embeds to the same
768-dimension vector (the default model dimension). -/
def embed768 : Str → Except IngestErr (List ℚ) := fun _ => Except.ok (List.replicate 768 1)

/-- A concrete embedder for witnesses: every chunk text embeds to a
2-dimension vector. -/
def embedTiny : Str → Except IngestErr (List ℚ) := fun _ => Except.ok [1, 2]

/-- A concrete embedder that succeeds on the single-character chunk `"a"`
and fails with a transient embedding error on everything else. -/
def embedFailSecond : Str → Except IngestErr (List ℚ) := fun t =>
  if t = ['a'] then Except.ok [1] else Except.error IngestErr.embedding_compute

/-- A concrete uuid supply for witnesses. -/
def idsSeq : Nat → String := fun _ => "c"

/-- A concrete persisted chunk for witnesses (file `f1` of store `v1`). -/
def chunkA : FileObjectDocumentChunk :=
  { id := "a", embedding := [1], content := none, file_id := "f1", vector_store_id := "v1" }

/-- A concrete persisted chunk for witnesses (file `f2` of store `v1`). -/
def chunkB : FileObjectDocumentChunk :=
  { id := "b", embedding := [2], content := none, file_id := "f2", vector_store_id := "v1" }

/-- A concrete chunk-store state for witnesses: two chunks of two distinct
files in store `v1`. -/
def dbC : ChunkDb := { stores := ["v1"], chunks := [chunkA, chunkB], files := [] }

theorem dist2_nonneg (q v : List ℚ) : 0 ≤ dist2 q v := by
  unfold dist2
  apply List.sum_nonneg
  intro x hx
  rcases List.mem_map.mp hx with ⟨p, _, rfl⟩
  positivity

/-- C2: the score of a search hit is `1 / (1 + d)` for `d` the squared
Euclidean distance of the matched chunk's embedding to the query; since
`d ≥ 0`, the score lies in `(0, 1]`, equals `1` exactly when `d = 0`, and
is strictly decreasing in the distance. -/
theorem C2_score_of_distance (q v : List ℚ) :
    0 < score (dist2 q v) ∧ score (dist2 q v) ≤ 1 ∧
      (score (dist2 q v) = 1 ↔ dist2 q v = 0) ∧
      ∀ e : ℚ, dist2 q v < e → score e < score (dist2 q v) := by
  have hd : 0 ≤ dist2 q v := dist2_nonneg q v
  have hpos : (0 : ℚ) < 1 + dist2 q v := by linarith
  refine ⟨?_, ?_, ?_, ?_⟩
  · unfold score
    positivity
  · unfold score
    rw [div_le_one hpos]
    linarith
  · unfold score
    rw [div_eq_one_iff_eq (ne_of_gt hpos)]
    constructor
    · intro h
      linarith
    · intro h
      rw [h, add_zero]
  · intro e he
    unfold score
    exact one_div_lt_one_div_of_lt hpos (by linarith)

/-- Witness for C2 at the concrete query `[1]` and stored vector `[0]`
(distance `1`), with the monotonicity conjunct applied at distance `3`. -/
theorem C2_score_of_distance_witness :
    0 < score (dist2 [(1 : ℚ)] [0]) ∧ score (dist2 [(1 : ℚ)] [0]) ≤ 1 ∧
      (score (dist2 [(1 : ℚ)] [0]) = 1 ↔ dist2 [(1 : ℚ)] [0] = 0) ∧
      score 3 < score (dist2 [(1 : ℚ)] [0]) := by
  have h := C2_score_of_distance [(1 : ℚ)] [0]
  exact ⟨h.1, h.2.1, h.2.2.1, h.2.2.2 3 (by norm_num [dist2])⟩

theorem norm2_map_div (v : List ℚ) (s : ℚ) :
    norm2 (v.map (fun x => x / s)) = norm2 v / s ^ 2 := by
  unfold norm2
  induction v with
  | nil => simp
  | cons a t ih =>
    simp only [List.map_cons, List.sum_cons] at *
    rw [ih, div_pow, add_div]

/-- C8: the embeddings computed by `ImageTextEmbedder`, on the text and the
image path alike, are `F.normalize`d mean-pooled model outputs: whenever the
pooled vector has (float) L2 norm `s` at least `eps`, the returned vector
has squared L2 norm exactly `1` (unit norm, in the exact-arithmetic
idealization of float32) and the model's dimension is preserved. -/
theorem C8_embeddings_unit_norm (hidden : List (List ℚ)) (s : ℚ)
    (hs : s * s = norm2 (meanPool hidden)) (heps : normEps ≤ s) :
    norm2 (compute_text_embedding hidden s) = 1 ∧
      (compute_text_embedding hidden s).length = (meanPool hidden).length ∧
      norm2 (compute_image_embedding hidden s) = 1 ∧
      (compute_image_embedding hidden s).length = (meanPool hidden).length := by
  have hepos : (0 : ℚ) < normEps := by norm_num [normEps]
  have hspos : (0 : ℚ) < s := lt_of_lt_of_le hepos heps
  have hmax : max s normEps = s := max_eq_left heps
  have hne : s ^ 2 ≠ 0 := pow_ne_zero 2 (ne_of_gt hspos)
  have hnorm : norm2 (F_normalize s (meanPool hidden)) = 1 := by
    unfold F_normalize
    rw [hmax, norm2_map_div, ← hs, pow_two, div_self]
    rw [← pow_two]
    exact hne
  have hlen : (F_normalize s (meanPool hidden)).length = (meanPool hidden).length := by
    unfold F_normalize
    simp
  exact ⟨hnorm, hlen, hnorm, hlen⟩

/-- Witness for C8 at the concrete hidden state `[[3, 4]]` (pooled vector
`[3, 4]`, norm `5`). -/
theorem C8_embeddings_unit_norm_witness :
    norm2 (compute_text_embedding [[(3 : ℚ), 4]] 5) = 1 ∧
      norm2 (compute_image_embedding [[(3 : ℚ), 4]] 5) = 1 := by
  have h := C8_embeddings_unit_norm [[(3 : ℚ), 4]] 5
    (by norm_num [meanPool, sumVecs, norm2]) (by norm_num [normEps])
  exact ⟨h.1, h.2.2.1⟩

theorem lookup_map_upsert (id : String) (u : CreateVectorStore) :
    ∀ t : VectorStoreTable,
      (t.map (fun r => if r.1 = id then (id, u) else r)).lookup id
        = (t.lookup id).map (fun _ => u) := by
  intro t
  induction t with
  | nil => simp
  | cons p t ih =>
    rcases p with ⟨k, v⟩
    rw [List.map_cons]
    by_cases h : k = id
    · subst h
      rw [if_pos rfl]
      simp [List.lookup]
    · rw [if_neg h]
      simp [List.lookup, beq_false_of_ne (Ne.symm h), ih]

theorem map_upsert_idem (id : String) (u : CreateVectorStore) (t : VectorStoreTable) :
    ((t.map (fun r => if r.1 = id then (id, u) else r)).map
        (fun r => if r.1 = id then (id, u) else r))
      = t.map (fun r => if r.1 = id then (id, u) else r) := by
  rw [List.map_map]
  apply List.map_congr_left
  intro r _
  by_cases h : r.1 = id
  · rw [Function.comp_apply, if_pos h, if_pos rfl]
  · rw [Function.comp_apply, if_neg h, if_neg h]

theorem lookup_none_map_id (id : String) (u : CreateVectorStore) :
    ∀ t : VectorStoreTable, t.lookup id = none →
      t.map (fun r => if r.1 = id then (id, u) else r) = t := by
  intro t
  induction t with
  | nil => intro _; rfl
  | cons p t ih =>
    rcases p with ⟨k, v⟩
    intro h
    by_cases hk : k = id
    · subst hk
      simp [List.lookup] at h
    · simp only [List.lookup, beq_false_of_ne (Ne.symm hk)] at h
      rw [List.map_cons, if_neg hk, ih h]

theorem lookup_append_single (id : String) (d : CreateVectorStore) :
    ∀ t : VectorStoreTable, t.lookup id = none →
      (t ++ [(id, d)]).lookup id = some d := by
  intro t
  induction t with
  | nil => intro _; simp [List.lookup]
  | cons p t ih =>
    rcases p with ⟨k, v⟩
    intro h
    by_cases hk : k = id
    · subst hk
      simp [List.lookup] at h
    · simp only [List.lookup, beq_false_of_ne (Ne.symm hk)] at h
      rw [List.cons_append]
      simp only [List.lookup, beq_false_of_ne (Ne.symm hk)]
      exact ih h

theorem create_store_idem (db : ChunkDb) (id : String) :
    (db.create_store id).create_store id = db.create_store id := by
  unfold ChunkDb.create_store
  by_cases h : id ∈ db.stores
  · simp [h]
  · simp [h]

theorem prismaUpsertVS_self_idem (id : String) (d : CreateVectorStore)
    (t : VectorStoreTable) :
    prismaUpsertVS id d d (prismaUpsertVS id d d t).1 = prismaUpsertVS id d d t := by
  unfold prismaUpsertVS
  cases h : t.lookup id with
  | none =>
    simp only [h]
    rw [lookup_append_single id d t h]
    rw [List.map_append, lookup_none_map_id id d t h, List.map_cons, List.map_nil]
    rw [if_pos rfl]
  | some v =>
    simp only [h]
    rw [lookup_map_upsert id d t, h]
    simp only [Option.map_some']
    rw [map_upsert_idem]

/-- C10: `create_vector_store` is idempotent at the record level — issuing
the same create request twice leaves exactly the state (chunk-store
namespace and Prisma `VectorStore` table) and returns exactly the record of
issuing it once; the endpoint is an upsert, so a duplicate id takes the
update path instead of raising a duplicate-id error. -/
theorem C10_create_vector_store_idempotent (data : CreateVectorStore)
    (db : ChunkDb) (t : VectorStoreTable) :
    create_vector_store data ((create_vector_store data db t).1.1)
        ((create_vector_store data db t).1.2)
      = create_vector_store data db t := by
  unfold create_vector_store
  rw [create_store_idem, prismaUpsertVS_self_idem]

theorem groupAux_join (k : Nat) :
    ∀ (l cur : List Str) (cnt : Nat),
      (SentenceChunker.groupAux k l cur cnt).flatten = cur ++ l := by
  intro l
  induction l with
  | nil =>
    intro cur cnt
    by_cases h : cur = [] <;> simp [SentenceChunker.groupAux, h]
  | cons s rest ih =>
    intro cur cnt
    simp only [SentenceChunker.groupAux]
    by_cases h : k ≤ cnt + 1
    · rw [if_pos h]
      simp [ih]
    · rw [if_neg h]
      simp [ih]

theorem groupAux_length (k : Nat) (hk : 1 ≤ k) :
    ∀ (l cur : List Str), cur.length < k →
      (SentenceChunker.groupAux k l cur cur.length).length
        = (cur.length + l.length + k - 1) / k := by
  intro l
  induction l with
  | nil =>
    intro cur hcur
    by_cases h : cur = []
    · subst h
      simp only [SentenceChunker.groupAux, if_pos rfl, List.length_nil]
      symm
      apply Nat.div_eq_of_lt
      omega
    · have hc : 1 ≤ cur.length := List.length_pos.mpr h
      simp only [SentenceChunker.groupAux, if_neg h, List.length_cons, List.length_nil]
      have h1 : cur.length + 0 + k - 1 = (cur.length - 1) + k := by omega
      rw [h1, Nat.add_div_right _ (by omega), Nat.div_eq_of_lt (by omega)]
  | cons s rest ih =>
    intro cur hcur
    simp only [SentenceChunker.groupAux]
    by_cases h : k ≤ cur.length + 1
    · rw [if_pos h]
      have h2 := ih [] (by simpa using hk)
      simp only [List.length_nil] at h2
      have e1 : cur.length + (s :: rest).length + k - 1 = (0 + rest.length + k - 1) + k := by
        simp only [List.length_cons]
        omega
      rw [List.length_cons, h2, e1, Nat.add_div_right _ (by omega)]
    · rw [if_neg h]
      have h1 : (cur ++ [s]).length < k := by
        simp only [List.length_append, List.length_cons, List.length_nil]
        omega
      have h3 := ih (cur ++ [s]) h1
      simp only [List.length_append, List.length_cons, List.length_nil] at h3
      rw [h3]
      congr 1
      simp only [List.length_cons]
      omega

theorem groupAux_mem (k : Nat) :
    ∀ (l cur : List Str), cur.length < k →
      ∀ g ∈ SentenceChunker.groupAux k l cur cur.length,
        g ≠ [] ∧ g.length ≤ k ∧ ∀ t ∈ g, t ∈ cur ∨ t ∈ l := by
  intro l
  induction l with
  | nil =>
    intro cur hcur g hg
    by_cases h : cur = []
    · subst h
      simp [SentenceChunker.groupAux] at hg
    · simp only [SentenceChunker.groupAux, if_neg h, List.mem_singleton] at hg
      subst hg
      exact ⟨h, le_of_lt hcur, fun t ht => Or.inl ht⟩
  | cons s rest ih =>
    intro cur hcur g hg
    simp only [SentenceChunker.groupAux] at hg
    by_cases h : k ≤ cur.length + 1
    · rw [if_pos h] at hg
      rcases List.mem_cons.mp hg with hg1 | hg2
      · subst hg1
        refine ⟨by simp, ?_, ?_⟩
        · simp only [List.length_append, List.length_cons, List.length_nil]
          omega
        · intro t ht
          rcases List.mem_append.mp ht with h1 | h2
          · exact Or.inl h1
          · rw [List.mem_singleton] at h2
            subst h2
            exact Or.inr (List.mem_cons_self _ _)
      · rcases ih [] (by simpa using (by omega : 0 < k)) g hg2 with ⟨hne, hle, hmem⟩
        refine ⟨hne, hle, fun t ht => ?_⟩
        rcases hmem t ht with hc | hr
        · exact absurd hc (List.not_mem_nil t)
        · exact Or.inr (List.mem_cons_of_mem _ hr)
    · rw [if_neg h] at hg
      have e : (cur ++ [s]).length = cur.length + 1 := by simp
      rw [← e] at hg
      rcases ih (cur ++ [s]) (by omega) g hg with ⟨hne, hle, hmem⟩
      refine ⟨hne, hle, fun t ht => ?_⟩
      rcases hmem t ht with hc | hr
      · rcases List.mem_append.mp hc with h1 | h2
        · exact Or.inl h1
        · rw [List.mem_singleton] at h2
          subst h2
          exact Or.inr (List.mem_cons_self _ _)
      · exact Or.inr (List.mem_cons_of_mem _ hr)

theorem groupAux_dropLast (k : Nat) :
    ∀ (l cur : List Str), cur.length < k →
      ∀ g ∈ (SentenceChunker.groupAux k l cur cur.length).dropLast, g.length = k := by
  intro l
  induction l with
  | nil =>
    intro cur hcur g hg
    by_cases h : cur = [] <;> simp [SentenceChunker.groupAux, h] at hg
  | cons s rest ih =>
    intro cur hcur g hg
    simp only [SentenceChunker.groupAux] at hg
    by_cases h : k ≤ cur.length + 1
    · rw [if_pos h] at hg
      rcases hrec : SentenceChunker.groupAux k rest [] 0 with _ | ⟨r, rs⟩
      · rw [hrec] at hg
        simp at hg
      · rw [hrec, List.dropLast_cons₂] at hg
        rcases List.mem_cons.mp hg with hg1 | hg2
        · subst hg1
          simp only [List.length_append, List.length_cons, List.length_nil]
          omega
        · have h0 := ih [] (by simpa using (by omega : 0 < k)) g
          rw [show ([] : List Str).length = 0 from rfl, hrec] at h0
          exact h0 hg2
    · rw [if_neg h] at hg
      have e : (cur ++ [s]).length = cur.length + 1 := by simp
      rw [← e] at hg
      exact ih (cur ++ [s]) (by omega) g hg

theorem mem_joinSp : ∀ (g : List Str) (s : Str), s ∈ g → ∀ c ∈ s, c ∈ joinSp g := by
  intro g
  induction g with
  | nil =>
    intro s hs
    exact absurd hs (List.not_mem_nil s)
  | cons x t ih =>
    intro s hs c hc
    cases t with
    | nil =>
      rw [List.mem_singleton] at hs
      subst hs
      simpa [joinSp] using hc
    | cons y t' =>
      rw [show joinSp (x :: y :: t') = x ++ ' ' :: joinSp (y :: t') from rfl]
      rcases List.mem_cons.mp hs with h1 | h2
      · subst h1
        exact List.mem_append_left _ hc
      · exact List.mem_append_right _ (List.mem_cons_of_mem _ (ih s h2 c hc))

theorem isBlank_false_of_mem (s : Str) (c : Char) (hc : c ∈ s)
    (hw : c.isWhitespace = false) : isBlank s = false := by
  unfold isBlank
  rw [List.all_eq_false]
  exact ⟨c, hc, by simp [hw]⟩

theorem exists_nonblank_char (s : Str) (hb : isBlank s = false) :
    ∃ c ∈ s, c.isWhitespace = false := by
  unfold isBlank at hb
  rw [List.all_eq_false] at hb
  rcases hb with ⟨c, hc, hw⟩
  exact ⟨c, hc, by simpa using hw⟩

theorem isBlank_joinSp_false (g : List Str) (s : Str) (hs : s ∈ g)
    (hb : isBlank s = false) : isBlank (joinSp g) = false := by
  rcases exists_nonblank_char s hb with ⟨c, hc, hw⟩
  exact isBlank_false_of_mem _ c (mem_joinSp g s hs c hc) hw

theorem joinSp_ne_nil (g : List Str) (hg : g ≠ []) (hs : ∀ t ∈ g, t ≠ []) :
    joinSp g ≠ [] := by
  cases g with
  | nil => exact absurd rfl hg
  | cons x t =>
    cases t with
    | nil => simpa [joinSp] using hs x (List.mem_singleton_self x)
    | cons y t' => simp [joinSp]

theorem chunk_groups (s : SentenceChunker) (hk : 1 ≤ s.max_chunk_size_tokens)
    (sents : List Str) :
    ∀ g ∈ s.apply_max_chunk_size sents,
      g ≠ [] ∧ g.length ≤ s.max_chunk_size_tokens ∧ ∀ t ∈ g, t ∈ sents := by
  intro g hg
  unfold SentenceChunker.apply_max_chunk_size at hg
  by_cases hs : sents = []
  · rw [if_pos hs] at hg
    exact absurd hg (List.not_mem_nil g)
  · rw [if_neg hs] at hg
    rcases groupAux_mem s.max_chunk_size_tokens sents [] (by simpa using hk) g hg with
      ⟨hne, hle, hmem⟩
    refine ⟨hne, hle, fun t ht => ?_⟩
    rcases hmem t ht with hc | hr
    · exact absurd hc (List.not_mem_nil t)
    · exact hr

theorem groups_nonblank (s : SentenceChunker) (hk : 1 ≤ s.max_chunk_size_tokens)
    (sents : List Str) (hnb : ∀ t ∈ sents, isBlank t = false) :
    ∀ g ∈ s.apply_max_chunk_size sents, isBlank (joinSp g) = false := by
  intro g hg
  rcases chunk_groups s hk sents g hg with ⟨hne, _, hmem⟩
  cases g with
  | nil => exact absurd rfl hne
  | cons t0 g' =>
    exact isBlank_joinSp_false _ t0 (List.mem_cons_self _ _)
      (hnb t0 (hmem t0 (List.mem_cons_self _ _)))

/-- C3: with `chunk_overlap = 0` and `max_chunk_size = k ≥ 1`, sentence
chunking of `N ≥ 1` nonblank sentences yields exactly `⌈N/k⌉` chunks — the
groups of `k` consecutive sentences in document order, each joined by
single blanks — each chunk holds at most `k` sentences, all chunks except
possibly the last hold exactly `k`, and the concatenation of the groups is
exactly the original sentence list (every sentence exactly once). -/
theorem C3_sentence_chunking (s : SentenceChunker) (hk : 1 ≤ s.max_chunk_size_tokens)
    (ho : s.chunk_overlap_tokens = 0) (sents : List Str) (hne : sents ≠ [])
    (hnb : ∀ t ∈ sents, isBlank t = false) :
    s.chunk sents = (s.apply_max_chunk_size sents).map joinSp ∧
      (s.chunk sents).length
        = (sents.length + s.max_chunk_size_tokens - 1) / s.max_chunk_size_tokens ∧
      (∀ g ∈ s.apply_max_chunk_size sents, g.length ≤ s.max_chunk_size_tokens) ∧
      (∀ g ∈ (s.apply_max_chunk_size sents).dropLast,
        g.length = s.max_chunk_size_tokens) ∧
      (s.apply_max_chunk_size sents).flatten = sents := by
  have hgs : s.apply_chunk_overlap (s.apply_max_chunk_size sents)
      = (s.apply_max_chunk_size sents).map joinSp := by
    cases h : s.apply_max_chunk_size sents with
    | nil => simp [SentenceChunker.apply_chunk_overlap]
    | cons c cs => simp [SentenceChunker.apply_chunk_overlap, ho]
  have hA : s.chunk sents = (s.apply_max_chunk_size sents).map joinSp := by
    unfold SentenceChunker.chunk
    rw [hgs]
    apply List.filter_eq_self.mpr
    intro x hx
    rcases List.mem_map.mp hx with ⟨g, hg, rfl⟩
    simp [groups_nonblank s hk sents hnb g hg]
  refine ⟨hA, ?_, ?_, ?_, ?_⟩
  · rw [hA, List.length_map]
    unfold SentenceChunker.apply_max_chunk_size
    rw [if_neg hne]
    have := groupAux_length s.max_chunk_size_tokens hk sents [] (by simpa using hk)
    simpa using this
  · intro g hg
    exact (chunk_groups s hk sents g hg).2.1
  · intro g hg
    unfold SentenceChunker.apply_max_chunk_size at hg
    rw [if_neg hne] at hg
    exact groupAux_dropLast s.max_chunk_size_tokens sents [] (by simpa using hk) g hg
  · unfold SentenceChunker.apply_max_chunk_size
    rw [if_neg hne]
    simpa using groupAux_join s.max_chunk_size_tokens sents [] 0

/-- Witness for C3 at the concrete strategy `k = 2, o = 0` on three
one-character sentences. -/
theorem C3_sentence_chunking_witness :
    (SentenceChunker.mk 2 0 Lang.en).chunk [[ 'a' ], ['b'], ['c']]
        = ((SentenceChunker.mk 2 0 Lang.en).apply_max_chunk_size
            [[ 'a' ], ['b'], ['c']]).map joinSp ∧
      ((SentenceChunker.mk 2 0 Lang.en).apply_max_chunk_size
          [[ 'a' ], ['b'], ['c']]).flatten = [[ 'a' ], ['b'], ['c']] := by
  have h := C3_sentence_chunking (SentenceChunker.mk 2 0 Lang.en) (by decide) rfl
    [[ 'a' ], ['b'], ['c']] (by decide) (by decide)
  exact ⟨h.1, h.2.2.2.2⟩

theorem overlapAux_eq_map (o : Nat) :
    ∀ (cs : List (List Str)) (prev : List Str),
      SentenceChunker.overlapAux o prev cs
        = ((prev :: cs).zip cs).map
            (fun p => SentenceChunker.overlapStep o p.1 p.2) := by
  intro cs
  induction cs with
  | nil => intro prev; rfl
  | cons c cs ih =>
    intro prev
    rw [show SentenceChunker.overlapAux o prev (c :: cs)
        = SentenceChunker.overlapStep o prev c :: SentenceChunker.overlapAux o c cs
      from rfl]
    rw [ih c]
    rfl

theorem overlapStep_eq (o : Nat) (ho : 1 ≤ o) (prev cur : List Str)
    (hprev : prev ≠ []) (hps : ∀ t ∈ prev, t ≠ []) :
    SentenceChunker.overlapStep o prev cur
        = joinSp (prev.drop (prev.length - o)) ++ ' ' :: joinSp cur ∧
      (prev.drop (prev.length - o)).length = min o prev.length := by
  have hp1 : 1 ≤ prev.length := List.length_pos.mpr hprev
  have hlen : (prev.drop (prev.length - o)).length = min o prev.length := by
    rw [List.length_drop]
    omega
  have hov : (if o ≤ prev.length then prev.drop (prev.length - o) else prev)
      = prev.drop (prev.length - o) := by
    split_ifs with h
    · rfl
    · rw [Nat.sub_eq_zero_of_le (by omega), List.drop_zero]
  have hne : joinSp (prev.drop (prev.length - o)) ≠ [] := by
    apply joinSp_ne_nil
    · apply List.length_pos.mp
      rw [hlen]
      omega
    · intro t ht
      exact hps t (List.mem_of_mem_drop ht)
  constructor
  · simp only [SentenceChunker.overlapStep]
    rw [hov, if_neg hne]
  · exact hlen

theorem apply_chunk_overlap_length (s : SentenceChunker) (gs : List (List Str)) :
    (s.apply_chunk_overlap gs).length = gs.length := by
  cases gs with
  | nil => rfl
  | cons c cs =>
    by_cases h0 : s.chunk_overlap_tokens = 0
    · simp [SentenceChunker.apply_chunk_overlap, h0]
    · simp only [SentenceChunker.apply_chunk_overlap, if_neg h0, overlapAux_eq_map,
        List.length_cons, List.length_map, List.length_zip]
      omega

theorem overlap_getD_succ (s : SentenceChunker) (ho : 1 ≤ s.chunk_overlap_tokens)
    (gs : List (List Str)) (hg : ∀ g ∈ gs, g ≠ [])
    (hs : ∀ g ∈ gs, ∀ t ∈ g, t ≠ []) (i : Nat) (hi : i + 1 < gs.length) :
    (s.apply_chunk_overlap gs).getD (i + 1) []
        = joinSp ((gs.getD i []).drop
            ((gs.getD i []).length - s.chunk_overlap_tokens))
          ++ ' ' :: joinSp (gs.getD (i + 1) []) ∧
      ((gs.getD i []).drop
          ((gs.getD i []).length - s.chunk_overlap_tokens)).length
        = min s.chunk_overlap_tokens (gs.getD i []).length := by
  have ho0 : s.chunk_overlap_tokens ≠ 0 := by omega
  cases gs with
  | nil => simp at hi
  | cons c cs =>
    have happ : s.apply_chunk_overlap (c :: cs)
        = joinSp c :: SentenceChunker.overlapAux s.chunk_overlap_tokens c cs := by
      simp [SentenceChunker.apply_chunk_overlap, ho0]
    simp only [List.length_cons] at hi
    have hi' : i < cs.length := by omega
    have hcc : i < (c :: cs).length := by
      simp only [List.length_cons]
      omega
    have hm : i < (((c :: cs).zip cs).map
        (fun p => SentenceChunker.overlapStep s.chunk_overlap_tokens p.1 p.2)).length := by
      simp only [List.length_map, List.length_zip, List.length_cons]
      omega
    have e2 : (c :: cs).getD i [] = (c :: cs)[i] :=
      List.getD_eq_getElem (c :: cs) [] hcc
    have e3 : (c :: cs).getD (i + 1) [] = cs[i] := by
      rw [List.getD_cons_succ]
      exact List.getD_eq_getElem cs [] hi'
    have e4 : (s.apply_chunk_overlap (c :: cs)).getD (i + 1) []
        = SentenceChunker.overlapStep s.chunk_overlap_tokens ((c :: cs)[i]) (cs[i]) := by
      rw [happ, List.getD_cons_succ, overlapAux_eq_map,
        List.getD_eq_getElem _ _ hm]
      simp [List.getElem_zip]
    have hprev : (c :: cs)[i] ≠ [] := hg _ (List.getElem_mem _)
    have hpsent : ∀ t ∈ (c :: cs)[i], t ≠ [] := hs _ (List.getElem_mem _)
    have hstep := overlapStep_eq s.chunk_overlap_tokens ho ((c :: cs)[i]) (cs[i])
      hprev hpsent
    constructor
    · rw [e4, e2, e3]
      exact hstep.1
    · rw [e2]
      exact hstep.2

/-- C4: with `chunk_overlap = o ≥ 1`, the overlap pass leaves chunk `0`
unmodified and turns every later chunk `i` into the last
`min(o, |chunk i-1|)` sentences of the pre-overlap chunk `i-1`, joined by
single blanks, prepended to the pre-overlap chunk `i`'s text with a single
blank in between (stated for any chunk list whose chunks and sentences are
nonempty, as the size pass produces). -/
theorem C4_chunk_overlap (s : SentenceChunker) (ho : 1 ≤ s.chunk_overlap_tokens)
    (gs : List (List Str)) (hg : ∀ g ∈ gs, g ≠ [])
    (hs : ∀ g ∈ gs, ∀ t ∈ g, t ≠ []) :
    (s.apply_chunk_overlap gs).length = gs.length ∧
      (gs ≠ [] → (s.apply_chunk_overlap gs).getD 0 [] = joinSp (gs.getD 0 [])) ∧
      ∀ i, i + 1 < gs.length →
        (s.apply_chunk_overlap gs).getD (i + 1) []
            = joinSp ((gs.getD i []).drop
                ((gs.getD i []).length - s.chunk_overlap_tokens))
              ++ ' ' :: joinSp (gs.getD (i + 1) []) ∧
          ((gs.getD i []).drop
              ((gs.getD i []).length - s.chunk_overlap_tokens)).length
            = min s.chunk_overlap_tokens (gs.getD i []).length := by
  refine ⟨apply_chunk_overlap_length s gs, ?_, overlap_getD_succ s ho gs hg hs⟩
  intro hne
  cases gs with
  | nil => exact absurd rfl hne
  | cons c cs =>
    have ho0 : s.chunk_overlap_tokens ≠ 0 := by omega
    simp [SentenceChunker.apply_chunk_overlap, ho0]

/-- Witness for C4 at the concrete strategy `o = 1` on two one-sentence
chunks. -/
theorem C4_chunk_overlap_witness :
    ((SentenceChunker.mk 2 1 Lang.en).apply_chunk_overlap
          [[[ 'a' ]], [[ 'b' ]]]).getD 1 []
        = joinSp (([[[ 'a' ]], [[ 'b' ]]].getD 0 []).drop
            (([[[ 'a' ]], [[ 'b' ]]].getD 0 []).length - 1))
          ++ ' ' :: joinSp ([[[ 'a' ]], [[ 'b' ]]].getD 1 []) ∧
      ((SentenceChunker.mk 2 1 Lang.en).apply_chunk_overlap
          [[[ 'a' ]], [[ 'b' ]]]).length = 2 := by
  have h := C4_chunk_overlap (SentenceChunker.mk 2 1 Lang.en) (by decide)
    [[[ 'a' ]], [[ 'b' ]]] (by decide) (by decide)
  exact ⟨(h.2.2 0 (by decide)).1, h.1⟩

theorem overlapStep_nonblank (o : Nat) (prev cur : List Str)
    (h : isBlank (joinSp cur) = false) :
    isBlank (SentenceChunker.overlapStep o prev cur) = false := by
  simp only [SentenceChunker.overlapStep]
  split_ifs with h1 h2 h3
  · exact h
  · rcases exists_nonblank_char _ h with ⟨c, hc, hw⟩
    exact isBlank_false_of_mem _ c
      (List.mem_append_right _ (List.mem_cons_of_mem _ hc)) hw
  · exact h
  · rcases exists_nonblank_char _ h with ⟨c, hc, hw⟩
    exact isBlank_false_of_mem _ c
      (List.mem_append_right _ (List.mem_cons_of_mem _ hc)) hw

theorem apply_chunk_overlap_nonblank (s : SentenceChunker) (gs : List (List Str))
    (hnb : ∀ g ∈ gs, isBlank (joinSp g) = false) :
    ∀ x ∈ s.apply_chunk_overlap gs, isBlank x = false := by
  cases gs with
  | nil =>
    intro x hx
    simp [SentenceChunker.apply_chunk_overlap] at hx
  | cons c cs =>
    by_cases h0 : s.chunk_overlap_tokens = 0
    · intro x hx
      simp only [SentenceChunker.apply_chunk_overlap, if_pos h0] at hx
      rcases List.mem_map.mp hx with ⟨g, hg, rfl⟩
      exact hnb g hg
    · intro x hx
      simp only [SentenceChunker.apply_chunk_overlap, if_neg h0] at hx
      rcases List.mem_cons.mp hx with h1 | h2
      · subst h1
        exact hnb c (List.mem_cons_self _ _)
      · rw [overlapAux_eq_map] at h2
        rcases List.mem_map.mp h2 with ⟨⟨p1, p2⟩, hp, rfl⟩
        apply overlapStep_nonblank
        exact hnb p2 (List.mem_cons_of_mem _ (List.of_mem_zip hp).2)

/-- C5 counterexample: the strategy `max_chunk_size = 2, chunk_overlap = 3`
violates `chunk_overlap < max_chunk_size`, yet chunking a four-sentence
text raises no configuration error — it produces two chunks, the second
prefixed with the whole previous chunk (there is no validation anywhere in
`SentenceChunker`, so the claimed eager `ConfigurationError` never
happens). -/
theorem C5_counterexample :
    (SentenceChunker.mk 2 3 Lang.en).chunk [[ 'a' ], ['b'], ['c'], ['d']]
      = [[ 'a', ' ', 'b' ], ['a', ' ', 'b', ' ', 'c', ' ', 'd']] := by decide

/-- C5 amended: `SentenceChunker` performs no validation of
`chunk_overlap` against `max_chunk_size`: a strategy with
`chunk_overlap ≥ max_chunk_size ≥ 1` is accepted and `chunk` runs to
completion, producing one chunk per sentence group (never an error), with
the overlap effectively capped at the previous chunk's sentence count —
each chunk `i > 0` is the whole previous pre-overlap chunk prepended to
chunk `i`. -/
theorem C5_no_validation (s : SentenceChunker) (hk : 1 ≤ s.max_chunk_size_tokens)
    (ho : s.max_chunk_size_tokens ≤ s.chunk_overlap_tokens)
    (sents : List Str) (hnb : ∀ t ∈ sents, isBlank t = false) :
    (s.chunk sents).length = (s.apply_max_chunk_size sents).length ∧
      ∀ i, i + 1 < (s.apply_max_chunk_size sents).length →
        (s.apply_chunk_overlap (s.apply_max_chunk_size sents)).getD (i + 1) []
          = joinSp ((s.apply_max_chunk_size sents).getD i [])
            ++ ' ' :: joinSp ((s.apply_max_chunk_size sents).getD (i + 1) []) := by
  have ho1 : 1 ≤ s.chunk_overlap_tokens := le_trans hk ho
  have hg : ∀ g ∈ s.apply_max_chunk_size sents, g ≠ [] :=
    fun g hgm => (chunk_groups s hk sents g hgm).1
  have hts : ∀ g ∈ s.apply_max_chunk_size sents, ∀ t ∈ g, t ≠ [] := by
    intro g hgm t ht hnil
    have hb := hnb t ((chunk_groups s hk sents g hgm).2.2 t ht)
    rw [hnil] at hb
    simp [isBlank] at hb
  constructor
  · unfold SentenceChunker.chunk
    rw [List.filter_eq_self.mpr, apply_chunk_overlap_length]
    intro x hx
    simp [apply_chunk_overlap_nonblank s _ (groups_nonblank s hk sents hnb) x hx]
  · intro i hi
    have h := overlap_getD_succ s ho1 _ hg hts i hi
    rw [h.1]
    have hmem : (s.apply_max_chunk_size sents).getD i [] ∈ s.apply_max_chunk_size sents := by
      rw [List.getD_eq_getElem _ _ (by omega)]
      exact List.getElem_mem _
    have hle : ((s.apply_max_chunk_size sents).getD i []).length ≤ s.max_chunk_size_tokens :=
      (chunk_groups s hk sents _ hmem).2.1
    rw [Nat.sub_eq_zero_of_le (by omega), List.drop_zero]

/-- Witness for the C5 amended statement at the concrete strategy
`k = 2, o = 3` on four one-character sentences, with the overlap equation
applied at chunk index `1`. -/
theorem C5_no_validation_witness :
    ((SentenceChunker.mk 2 3 Lang.en).chunk [[ 'a' ], ['b'], ['c'], ['d']]).length
        = ((SentenceChunker.mk 2 3 Lang.en).apply_max_chunk_size
            [[ 'a' ], ['b'], ['c'], ['d']]).length ∧
      ((SentenceChunker.mk 2 3 Lang.en).apply_chunk_overlap
          ((SentenceChunker.mk 2 3 Lang.en).apply_max_chunk_size
            [[ 'a' ], ['b'], ['c'], ['d']])).getD 1 []
        = joinSp (((SentenceChunker.mk 2 3 Lang.en).apply_max_chunk_size
            [[ 'a' ], ['b'], ['c'], ['d']]).getD 0 [])
          ++ ' ' :: joinSp (((SentenceChunker.mk 2 3 Lang.en).apply_max_chunk_size
            [[ 'a' ], ['b'], ['c'], ['d']]).getD 1 []) := by
  have h := C5_no_validation (SentenceChunker.mk 2 3 Lang.en) (by decide) (by decide)
    [[ 'a' ], ['b'], ['c'], ['d']] (by decide)
  exact ⟨h.1, h.2 0 (by decide)⟩

theorem upsertLoop_ok (vsid fid : String) (embed : Str → Except IngestErr (List ℚ))
    (ids : Nat → String) :
    ∀ (ts : List Str) (i : Nat) (f : VectorStoreFileDocument) (db : ChunkDb),
      (∀ t ∈ ts, (embed t).isOk = true) →
      (upsertLoop vsid fid embed ids ts i f db).2 =
        Except.ok
          { f with
            status := FileStatus.completed,
            usage_bytes := f.usage_bytes + (ts.map (fun t => 4 * embedLen embed t)).sum } := by
  intro ts
  induction ts with
  | nil =>
    intro i f db _
    simp [upsertLoop]
  | cons t ts ih =>
    intro i f db hok
    cases het : embed t with
    | error e =>
      have hbad := hok t (List.mem_cons_self _ _)
      rw [het] at hbad
      simp [Except.isOk, Except.toBool] at hbad
    | ok v =>
      obtain ⟨u, vs, st, le, cstrat, fi⟩ := f
      have hrec := ih (i + 1)
        ⟨u + 4 * v.length, vs, st, le, cstrat, fi⟩
        (db.putChunk
          { id := ids i, embedding := v, content := some t, file_id := fid,
            vector_store_id := vsid })
        (fun t' ht' => hok t' (List.mem_cons_of_mem _ ht'))
      simp only [upsertLoop, het]
      rw [hrec]
      have hel : embedLen embed t = v.length := by simp [embedLen, het]
      simp only [List.map_cons, List.sum_cons, hel]
      congr 2
      omega

theorem upsertLoop_frame (vsid fid : String) (embed : Str → Except IngestErr (List ℚ))
    (ids : Nat → String) :
    ∀ (ts : List Str) (i : Nat) (f : VectorStoreFileDocument) (db : ChunkDb),
      (∀ e, (upsertLoop vsid fid embed ids ts i f db).2 = Except.error e →
          (upsertLoop vsid fid embed ids ts i f db).1.files = db.files) ∧
        (∀ f', (upsertLoop vsid fid embed ids ts i f db).2 = Except.ok f' →
          f'.status = FileStatus.completed ∧ f'.last_error = f.last_error) ∧
        (∀ f', f' ∈ (upsertLoop vsid fid embed ids ts i f db).1.files →
          f' ∈ db.files ∨ f'.status = FileStatus.completed) ∧
        ∃ new, (upsertLoop vsid fid embed ids ts i f db).1.chunks = db.chunks ++ new := by
  intro ts
  induction ts with
  | nil =>
    intro i f db
    refine ⟨?_, ?_, ?_, ⟨[], by simp [upsertLoop, ChunkDb.putFile]⟩⟩
    · intro e he
      simp [upsertLoop] at he
    · intro f' hf'
      simp only [upsertLoop] at hf'
      rw [Except.ok.injEq] at hf'
      subst hf'
      exact ⟨rfl, rfl⟩
    · intro f' hm
      simp only [upsertLoop, ChunkDb.putFile] at hm
      rcases List.mem_append.mp hm with h1 | h2
      · exact Or.inl h1
      · rw [List.mem_singleton] at h2
        subst h2
        exact Or.inr rfl
  | cons t ts ih =>
    intro i f db
    cases het : embed t with
    | error e =>
      refine ⟨?_, ?_, ?_, ⟨[], by simp [upsertLoop, het]⟩⟩
      · intro e' _
        simp [upsertLoop, het]
      · intro f' hf'
        simp [upsertLoop, het] at hf'
      · intro f' hm
        simp only [upsertLoop, het] at hm
        exact Or.inl hm
    | ok v =>
      have hrec := ih (i + 1)
        { f with usage_bytes := f.usage_bytes + 4 * v.length }
        (db.putChunk
          { id := ids i, embedding := v, content := some t, file_id := fid,
            vector_store_id := vsid })
      refine ⟨?_, ?_, ?_, ?_⟩
      · intro e he
        simp only [upsertLoop, het] at he ⊢
        exact hrec.1 e he
      · intro f' hf'
        simp only [upsertLoop, het] at hf'
        have := hrec.2.1 f' hf'
        exact ⟨this.1, this.2⟩
      · intro f' hm
        simp only [upsertLoop, het] at hm
        exact hrec.2.2.1 f' hm
      · rcases hrec.2.2.2 with ⟨new, hnew⟩
        refine ⟨({ id := ids i, embedding := v, content := some t, file_id := fid,
                   vector_store_id := vsid } : FileObjectDocumentChunk) :: new, ?_⟩
        simp only [upsertLoop, het]
        rw [hnew]
        simp [ChunkDb.putChunk]

/-- C7 amended: an error in any chunk's embedding or persistence aborts the
remaining chunk processing and propagates out of `FileSearchTool.upsert` to
the caller; chunks persisted before the error are retained, but NO
`VectorStoreFileDocument` is written on the error path — the persisted file
records are untouched, no record ever carries `status = failed`, and
`last_error` is never populated (the only record `upsert` ever writes is the
success record with `status = completed` and `last_error = none`). -/
theorem C7_error_propagation (strategy : SentenceChunker) (vsid fid : String)
    (embed : Str → Except IngestErr (List ℚ)) (ids : Nat → String)
    (sents : List Str) (db : ChunkDb) :
    (∀ e, (FileSearchTool.upsert strategy vsid fid embed ids sents db).2 = Except.error e →
        (FileSearchTool.upsert strategy vsid fid embed ids sents db).1.files = db.files) ∧
      (∀ f', (FileSearchTool.upsert strategy vsid fid embed ids sents db).2 = Except.ok f' →
        f'.status = FileStatus.completed ∧ f'.last_error = none) ∧
      (∀ f', f' ∈ (FileSearchTool.upsert strategy vsid fid embed ids sents db).1.files →
        f' ∈ db.files ∨ f'.status = FileStatus.completed) ∧
      ∃ new, (FileSearchTool.upsert strategy vsid fid embed ids sents db).1.chunks
        = db.chunks ++ new := by
  have h := upsertLoop_frame vsid fid embed ids (strategy.chunk sents) 0
    { vector_store_id := vsid, chunking_strategy := some strategy, file_id := fid } db
  unfold FileSearchTool.upsert
  exact ⟨h.1, fun f' hf' => h.2.1 f' hf', h.2.2.1, h.2.2.2⟩

set_option maxRecDepth 40000 in
/-- C7 counterexample: ingesting two one-sentence chunks (`k = 1, o = 0`)
with an embedder that fails on the second chunk — the error propagates out
of `upsert`, the first chunk stays persisted, and no
`VectorStoreFileDocument` is written at all: there is no record with
`status = failed` and no populated `last_error`, contradicting the claimed
`in_progress → failed` transition. -/
theorem C7_counterexample :
    (FileSearchTool.upsert (SentenceChunker.mk 1 0 Lang.en) ("vs") ("f")
        embedFailSecond idsSeq [[ 'a' ], ['b']] ({} : ChunkDb)).2
      = Except.error IngestErr.embedding_compute ∧
    (FileSearchTool.upsert (SentenceChunker.mk 1 0 Lang.en) ("vs") ("f")
        embedFailSecond idsSeq [[ 'a' ], ['b']] ({} : ChunkDb)).1.files = [] ∧
    (FileSearchTool.upsert (SentenceChunker.mk 1 0 Lang.en) ("vs") ("f")
        embedFailSecond idsSeq [[ 'a' ], ['b']] ({} : ChunkDb)).1.chunks.length = 1 := by
  refine ⟨by decide, by decide, by decide⟩

/-- Witness for the C7 amended statement: the concrete failing ingestion
run leaves the persisted file records of the starting state `dbC`
untouched. -/
theorem C7_error_propagation_witness :
    (FileSearchTool.upsert (SentenceChunker.mk 1 0 Lang.en) ("vs") ("f")
        embedFailSecond idsSeq [[ 'a' ], ['b']] dbC).1.files = dbC.files := by
  exact (C7_error_propagation (SentenceChunker.mk 1 0 Lang.en) ("vs") ("f")
    embedFailSecond idsSeq [[ 'a' ], ['b']] dbC).1 IngestErr.embedding_compute (by decide)

theorem sum_map_embed_const (embed : Str → Except IngestErr (List ℚ)) :
    ∀ l : List Str, (∀ t ∈ l, embedLen embed t = 768) →
      (l.map (fun t => 4 * embedLen embed t)).sum = 3072 * l.length := by
  intro l
  induction l with
  | nil =>
    intro _
    simp
  | cons a l ih =>
    intro h
    simp only [List.map_cons, List.sum_cons, List.length_cons]
    rw [h a (List.mem_cons_self _ _), ih (fun x hx => h x (List.mem_cons_of_mem _ hx))]
    ring

/-- C1 amended: on an ingestion whose chunking and embedding all succeed,
the `VectorStoreFileDocument` returned by `FileSearchTool.upsert` has
`status = completed` and `usage_bytes` equal to the sum of the embedding
byte sizes of the produced chunks (`768 * 4` bytes per chunk for a
768-dimension float32 model); however the Prisma `VectorStoreFile` row
created and returned by the HTTP endpoint `create_vector_store_file`
carries `usage_bytes = total_bytes`, the raw stored file's byte length,
not that sum. -/
theorem C1_usage_bytes (strategy : SentenceChunker) (vsid req_fid tool_fid : String)
    (total_bytes : Nat) (embed : Str → Except IngestErr (List ℚ)) (ids : Nat → String)
    (sents : List Str) (db : ChunkDb)
    (hok : ∀ t ∈ strategy.chunk sents, (embed t).isOk = true) :
    (FileSearchTool.upsert strategy vsid tool_fid embed ids sents db).2 =
      Except.ok
        { usage_bytes := ((strategy.chunk sents).map (fun t => 4 * embedLen embed t)).sum,
          vector_store_id := vsid, status := FileStatus.completed, last_error := none,
          chunking_strategy := some strategy, file_id := tool_fid } ∧
    ((∀ t ∈ strategy.chunk sents, embedLen embed t = 768) →
      ((strategy.chunk sents).map (fun t => 4 * embedLen embed t)).sum
        = 3072 * (strategy.chunk sents).length) ∧
    (create_vector_store_file vsid req_fid tool_fid total_bytes strategy embed ids
        sents db).2 =
      Except.ok
        { id := req_fid, vector_store_id := vsid, status := FileStatus.completed,
          usage_bytes := total_bytes } := by
  have h1 : (FileSearchTool.upsert strategy vsid tool_fid embed ids sents db).2 =
      Except.ok
        { usage_bytes := ((strategy.chunk sents).map (fun t => 4 * embedLen embed t)).sum,
          vector_store_id := vsid, status := FileStatus.completed, last_error := none,
          chunking_strategy := some strategy, file_id := tool_fid } := by
    have h := upsertLoop_ok vsid tool_fid embed ids (strategy.chunk sents) 0
      { vector_store_id := vsid, chunking_strategy := some strategy,
        file_id := tool_fid } db hok
    unfold FileSearchTool.upsert
    simpa using h
  refine ⟨h1, sum_map_embed_const embed _, ?_⟩
  rcases hu : FileSearchTool.upsert strategy vsid tool_fid embed ids sents db with ⟨db2, r⟩
  rw [hu] at h1
  simp only at h1
  subst h1
  unfold create_vector_store_file
  rw [hu]

/-- Witness for the C1 amended statement at a concrete all-successful
ingestion (one chunk, 768-dimension embeddings). -/
theorem C1_usage_bytes_witness :
    (FileSearchTool.upsert (SentenceChunker.mk 2 0 Lang.en) ("v1") ("tf") embed768 idsSeq
        [[ 'd' ], ['o']] dbC).2
      = Except.ok
          { usage_bytes := (((SentenceChunker.mk 2 0 Lang.en).chunk [[ 'd' ], ['o']]).map
              (fun t => 4 * embedLen embed768 t)).sum,
            vector_store_id := "v1", status := FileStatus.completed, last_error := none,
            chunking_strategy := some (SentenceChunker.mk 2 0 Lang.en), file_id := "tf" } := by
  exact (C1_usage_bytes (SentenceChunker.mk 2 0 Lang.en) ("v1") ("rf") ("tf") 10 embed768
    idsSeq [[ 'd' ], ['o']] dbC (by decide)).1

set_option maxRecDepth 40000 in
/-- C1 counterexample: ingesting a 10-byte stored file whose extracted text
is one two-sentence chunk through the HTTP endpoint — the chunk's
768-dimension float32 embedding accounts for `3072` bytes, but the
`VectorStoreFile` row the endpoint creates and returns carries
`usage_bytes = 10`, the raw file's byte length, not the sum of embedding
byte sizes. -/
theorem C1_counterexample :
    (create_vector_store_file ("vs") ("f") ("tf") 10 (SentenceChunker.mk 2 0 Lang.en)
        embed768 idsSeq [[ 'd' ], ['o']] ({} : ChunkDb)).2
      = Except.ok
          { id := "f", vector_store_id := "vs", status := FileStatus.completed,
            usage_bytes := 10 } ∧
    ((create_vector_store_file ("vs") ("f") ("tf") 10 (SentenceChunker.mk 2 0 Lang.en)
        embed768 idsSeq [[ 'd' ], ['o']] ({} : ChunkDb)).1.chunks.map
      (fun c => 4 * c.embedding.length)).sum = 3072 ∧
    (10 : Nat) ≠ 3072 := by
  refine ⟨by decide, by decide, by decide⟩

theorem filterMap_pad (docs : List FileObjectDocumentChunk) (n : Nat) :
    (List.replicate n ((-1 : Int), (0 : ℚ))).filterMap (fun p =>
      if p.1 = -1 then none
      else
        let d := docs.getD p.1.toNat default
        some ({ id := d.id, file_id := d.file_id, score := score p.2,
                content := d.content } : SimilaritySearchResult)) = [] := by
  induction n with
  | zero => rfl
  | succ n ih => simp [List.replicate_succ, List.filterMap_cons, ih]

theorem filterMap_hits (docs : List FileObjectDocumentChunk) (ds : List ℚ) :
    ∀ l : List Nat,
      (l.map (fun i => (Int.ofNat i, ds.getD i 0))).filterMap (fun p =>
        if p.1 = -1 then none
        else
          let d := docs.getD p.1.toNat default
          some ({ id := d.id, file_id := d.file_id, score := score p.2,
                  content := d.content } : SimilaritySearchResult))
        = l.map (fun i =>
            ({ id := (docs.getD i default).id,
               file_id := (docs.getD i default).file_id,
               score := score (ds.getD i 0),
               content := (docs.getD i default).content } : SimilaritySearchResult)) := by
  intro l
  induction l with
  | nil => rfl
  | cons i l ih =>
    simp only [List.map_cons, List.filterMap_cons]
    have hne : (Int.ofNat i) ≠ -1 := by
      intro h
      have h0 : (0 : Int) ≤ Int.ofNat i := Int.ofNat_nonneg i
      rw [h] at h0
      norm_num at h0
    rw [if_neg hne, ih]
    rfl

theorem search_eq (docs : List FileObjectDocumentChunk) (q : List ℚ) (topk : Nat) :
    FileSearchTool.search docs q topk
      = ((List.insertionSort
            (rankRel ((docs.map (fun d => d.embedding)).map (dist2 q)))
            (List.range docs.length)).take topk).map
          (fun i =>
            ({ id := (docs.getD i default).id,
               file_id := (docs.getD i default).file_id,
               score := score (((docs.map (fun d => d.embedding)).map (dist2 q)).getD i 0),
               content := (docs.getD i default).content } : SimilaritySearchResult)) := by
  simp only [FileSearchTool.search, faissSearch, List.length_map]
  rw [List.filterMap_append, filterMap_pad, List.append_nil]
  exact filterMap_hits docs _ _

theorem ds_getD_nonneg (q : List ℚ) (em : List (List ℚ)) (i : Nat) :
    0 ≤ (em.map (dist2 q)).getD i 0 := by
  by_cases hi : i < (em.map (dist2 q)).length
  · rw [List.getD_eq_getElem _ _ hi]
    have hi' : i < em.length := by simpa using hi
    rw [List.getElem_map]
    exact dist2_nonneg _ _
  · rw [List.getD_eq_default]
    omega

theorem score_le_score (d1 d2 : ℚ) (h0 : 0 ≤ d1) (h : d1 ≤ d2) :
    score d2 ≤ score d1 := by
  unfold score
  exact one_div_le_one_div_of_le (by linarith) (by linarith)

/-- C6: for a vector store holding `n` chunks and any `top_k ≥ 1`, search
returns exactly `min(top_k, n)` results; with zero chunks it returns the
empty sequence (no error), with `top_k > n` it returns all `n` chunks, and
the returned scores are ranked descending. -/
theorem C6_search_topk (docs : List FileObjectDocumentChunk) (q : List ℚ) (topk : Nat)
    (htop : 1 ≤ topk) :
    (FileSearchTool.search docs q topk).length = min topk docs.length ∧
      (docs = [] → FileSearchTool.search docs q topk = []) ∧
      (docs.length ≤ topk →
        (FileSearchTool.search docs q topk).length = docs.length) ∧
      List.Sorted (fun a b : SimilaritySearchResult => b.score ≤ a.score)
        (FileSearchTool.search docs q topk) := by
  have hlen : (FileSearchTool.search docs q topk).length = min topk docs.length := by
    rw [search_eq]
    simp
  refine ⟨hlen, ?_, ?_, ?_⟩
  · intro h
    subst h
    rw [search_eq]
    simp
  · intro h
    rw [hlen]
    omega
  · show List.Pairwise _ _
    rw [search_eq]
    refine List.Pairwise.map _ ?_
      (List.Pairwise.sublist (List.take_sublist _ _) (List.sorted_insertionSort _ _))
    intro a b hab
    rcases hab with h1 | ⟨h2, _⟩
    · exact score_le_score _ _ (ds_getD_nonneg q _ a) (le_of_lt h1)
    · exact le_of_eq (congrArg score h2.symm)

/-- Witness for C6 at a concrete one-chunk store and `top_k = 1`. -/
theorem C6_search_topk_witness :
    (FileSearchTool.search [chunkA] [(0 : ℚ)] 1).length = min 1 ([chunkA].length) := by
  exact (C6_search_topk [chunkA] [(0 : ℚ)] 1 (by decide)).1

theorem foldl_deleteChunk (vsid : String) :
    ∀ (ts : List FileObjectDocumentChunk) (db : ChunkDb),
      ts.foldl (fun d c => d.deleteChunk vsid c.id) db
        = { db with chunks := db.chunks.filter (fun x =>
            !(decide (x.vector_store_id = vsid ∧ x.id ∈ ts.map (fun c => c.id)))) } := by
  intro ts
  induction ts with
  | nil =>
    intro db
    cases db with
    | mk st ch fs =>
      simp [List.filter_eq_self]
  | cons c ts ih =>
    intro db
    simp only [List.foldl_cons]
    rw [ih]
    cases db with
    | mk st ch fs =>
      simp only [ChunkDb.deleteChunk]
      have hch : ((ch.filter (fun x =>
            !(decide (x.vector_store_id = vsid ∧ x.id = c.id)))).filter (fun x =>
            !(decide (x.vector_store_id = vsid ∧ x.id ∈ ts.map (fun c => c.id)))))
          = ch.filter (fun x =>
            !(decide (x.vector_store_id = vsid ∧ x.id ∈ (c :: ts).map (fun c => c.id)))) := by
        rw [List.filter_filter]
        apply List.filter_congr
        intro x _
        by_cases hv : x.vector_store_id = vsid
        · by_cases h1 : x.id = c.id
          · simp [hv, h1]
          · by_cases h2 : x.id ∈ ts.map (fun c => c.id)
            · simp [hv, h1, h2]
            · simp [hv, h1, h2]
        · simp [hv]
      rw [hch]

theorem mem_find_ids_iff (db : ChunkDb) (vsid fid : String)
    (hnodup : ((db.scan vsid).map (fun c => c.id)).Nodup)
    (x : FileObjectDocumentChunk) (hx : x ∈ db.chunks) (hv : x.vector_store_id = vsid) :
    x.id ∈ (db.find vsid fid).map (fun c => c.id) ↔ x.file_id = fid := by
  have hxs : x ∈ db.scan vsid := by
    unfold ChunkDb.scan
    exact List.mem_filter.mpr ⟨hx, by simp [hv]⟩
  constructor
  · intro hmem
    rcases List.mem_map.mp hmem with ⟨c, hc, hcid⟩
    have hcs : c ∈ db.scan vsid ∧ c.file_id = fid := by
      unfold ChunkDb.find at hc
      rcases List.mem_filter.mp hc with ⟨h1, h2⟩
      exact ⟨h1, of_decide_eq_true h2⟩
    have hxc : x = c :=
      List.inj_on_of_nodup_map hnodup hxs hcs.1 hcid.symm
    rw [hxc]
    exact hcs.2
  · intro hf
    apply List.mem_map.mpr
    refine ⟨x, ?_, rfl⟩
    unfold ChunkDb.find
    exact List.mem_filter.mpr ⟨hxs, by simp [hf]⟩

/-- C9: deleting a file from a vector store removes exactly the chunks
whose `file_id` equals the given file id (assuming the store's chunk ids
are distinct, as uuid-generated ids are): the subsequent `scan` is the old
one with precisely that file's chunks removed, every other file's `find`
is unchanged, every other vector store's `scan` is unchanged, and the
persisted file records are untouched. -/
theorem C9_delete_file_frame (db : ChunkDb) (vsid fid : String)
    (hnodup : ((db.scan vsid).map (fun c => c.id)).Nodup) :
    (delete_vector_store_file vsid fid db).scan vsid
        = (db.scan vsid).filter (fun c => !(decide (c.file_id = fid))) ∧
      (∀ g, g ≠ fid →
        (delete_vector_store_file vsid fid db).find vsid g = db.find vsid g) ∧
      (∀ w, w ≠ vsid →
        (delete_vector_store_file vsid fid db).scan w = db.scan w) ∧
      (delete_vector_store_file vsid fid db).files = db.files := by
  have hD : delete_vector_store_file vsid fid db
      = { db with chunks := db.chunks.filter (fun x =>
          !(decide (x.vector_store_id = vsid ∧
            x.id ∈ (db.find vsid fid).map (fun c => c.id)))) } := by
    unfold delete_vector_store_file
    exact foldl_deleteChunk vsid (db.find vsid fid) db
  have h1 : (delete_vector_store_file vsid fid db).scan vsid
      = (db.scan vsid).filter (fun c => !(decide (c.file_id = fid))) := by
    rw [hD]
    unfold ChunkDb.scan
    rw [List.filter_filter, List.filter_filter]
    apply List.filter_congr
    intro x hx
    by_cases hv : x.vector_store_id = vsid
    · have hiff := mem_find_ids_iff db vsid fid hnodup x hx hv
      by_cases hf : x.file_id = fid
      · have hmem : x.id ∈ (db.find vsid fid).map (fun c => c.id) := hiff.mpr hf
        simp [hv, hf, hmem]
      · have hmem : x.id ∉ (db.find vsid fid).map (fun c => c.id) :=
          fun hm => hf (hiff.mp hm)
        simp [hv, hf, hmem]
    · simp [hv]
  refine ⟨h1, ?_, ?_, by rw [hD]⟩
  · intro g hg
    unfold ChunkDb.find
    rw [h1, List.filter_filter]
    apply List.filter_congr
    intro x _
    by_cases hxg : x.file_id = g
    · have : ¬ x.file_id = fid := by
        rw [hxg]
        exact hg
      simp [hxg, this, hg]
    · simp [hxg]
  · intro w hw
    rw [hD]
    unfold ChunkDb.scan
    rw [List.filter_filter]
    apply List.filter_congr
    intro x _
    by_cases hxw : x.vector_store_id = w
    · have : ¬ x.vector_store_id = vsid := by
        rw [hxw]
        exact hw
      simp [hxw, this, hw]
    · simp [hxw]

/-- Witness for C9 at the concrete two-file store `dbC`: deleting file `f1`
leaves file `f2`'s chunks untouched. -/
theorem C9_delete_file_frame_witness :
    (delete_vector_store_file ("v1") ("f1") dbC).find ("v1") ("f2")
      = dbC.find ("v1") ("f2") := by
  exact (C9_delete_file_frame dbC ("v1") ("f1") (by decide)).2.1 ("f2") (by decide)
